import Mathlib

/-!
Shallow embedding of `scripts/convert_icons.py`: the frame-collection pass
(`load_square_pngs`) and the ICO container serializer (`write_ico`), together
with proofs of the behavioural claims about them.

Machine integers are modelled as `Nat` with explicit range checks where the
Python `struct` module would raise (`struct.error`) on out-of-range values.
Byte strings are `List Nat` with every element intended to be below 256.
-/

namespace ConvertIcons

/-- The `IconFrame` dataclass: dimensions, bit count and raw payload bytes. -/
structure IconFrame where
  width : Nat
  height : Nat
  bit_count : Nat
  data : List Nat
deriving DecidableEq, Repr, Inhabited

/-- One source PNG as the script sees it: the decoded image's dimensions,
whether the original file's band set includes an alpha band, and the raw
bytes of the file on disk (`png_path.read_bytes()`). -/
structure SrcImage where
  width : Nat
  height : Nat
  hasAlpha : Bool
  fileBytes : List Nat
deriving DecidableEq, Repr, Inhabited

/-- Bands reported by `getbands()` on `img.convert("RGBA")`.  An image in
PIL mode RGBA always has exactly the four bands R, G, B, A, whatever the
source image's mode was; the conversion also preserves width and height. -/
def convertedBands (_img : SrcImage) : List Char := ['R', 'G', 'B', 'A']

/-- The script's `bit_count = 32 if "A" in image.getbands() else 24`, where
`image` is the RGBA-converted image (not the source file). -/
def bitCountOf (img : SrcImage) : Nat :=
  if 'A' ∈ convertedBands img then 32 else 24

/-- The `IconFrame(...)` constructed for one accepted source image: the
decoded dimensions, the computed bit count, and the raw file bytes. -/
def mkFrame (img : SrcImage) : IconFrame :=
  { width := img.width, height := img.height, bit_count := bitCountOf img,
    data := img.fileBytes }

/-- The key of the script's `size_map` dictionary. -/
abbrev SizeKey := Nat × Nat

/-- Python-`dict` insertion on an association list: replace in place when the
key is already present, append otherwise (insertion order is preserved,
exactly as CPython dictionaries do). -/
def dictInsert (m : List (SizeKey × IconFrame)) (k : SizeKey) (v : IconFrame) :
    List (SizeKey × IconFrame) :=
  if m.any (fun p => decide (p.1 = k)) then
    m.map (fun p => if p.1 = k then (k, v) else p)
  else
    m ++ [(k, v)]

/-- One iteration of the loop over `sorted(folder.glob("*.png"))`: a
non-square image is skipped, a square one is inserted under its
`(width, height)` key. -/
def scanStep (m : List (SizeKey × IconFrame)) (img : SrcImage) :
    List (SizeKey × IconFrame) :=
  if img.width = img.height then
    dictInsert m (img.width, img.height) (mkFrame img)
  else m

/-- The `size_map` built by the whole loop, the files given in the sorted
order the glob produces. -/
def buildSizeMap (files : List SrcImage) : List (SizeKey × IconFrame) :=
  files.foldl scanStep []

/-- Stable insertion of `a` into a sorted list: `a` goes before the first
element it compares `le` to, hence after earlier-inserted equal elements. -/
def insertLe (le : α → α → Bool) (a : α) : List α → List α
  | [] => [a]
  | b :: l => if le a b then a :: b :: l else b :: insertLe le a l

/-- Model of Python's built-in stable `sorted`, as a stable insertion sort.
Python's Timsort and this sort agree on every input because both are stable
sorts for the same (total, transitive) comparison. -/
def pySorted (le : α → α → Bool) : List α → List α
  | [] => []
  | a :: l => insertLe le a (pySorted le l)

/-- Python's tuple comparison on `(width, height)` keys (lexicographic). -/
def keyLe (a b : SizeKey) : Bool :=
  decide (a.1 < b.1 ∨ (a.1 = b.1 ∧ a.2 ≤ b.2))

/-- Comparison of `size_map` entries by key. -/
def entryLe (p q : SizeKey × IconFrame) : Bool := keyLe p.1 q.1

/-- The returned list `[size_map[key] for key in sorted(size_map.keys())]`.
Since the keys of a dict are pairwise distinct, indexing the map at its
sorted keys is the same as sorting the entries by key and taking the
values. -/
def sortedFrames (m : List (SizeKey × IconFrame)) : List IconFrame :=
  (pySorted entryLe m).map Prod.snd

/-- The two failure conditions of `load_square_pngs`, named as in the spec:
`MissingSource` is the `FileNotFoundError` for an absent folder,
`EmptyFrameSet` the `ValueError` for a folder with no square PNG. -/
inductive LoadError where
  | MissingSource
  | EmptyFrameSet
deriving DecidableEq, Repr

/-- The function `load_square_pngs`.  The argument models the filesystem
view of the folder: `none` when the directory does not exist, `some files`
for the sorted listing of its `*.png` files (each already decoded by the
image collaborator). -/
def load_square_pngs (folder : Option (List SrcImage)) :
    Except LoadError (List IconFrame) :=
  match folder with
  | none => .error .MissingSource
  | some files =>
    let size_map := buildSizeMap files
    if size_map.isEmpty then .error .EmptyFrameSet
    else .ok (sortedFrames size_map)

/-- The struct.pack code `"B"`: one unsigned byte, `struct.error` outside
0..255 (modelled as `none`). -/
def packU8 (n : Nat) : Option (List Nat) :=
  if n < 256 then some [n] else none

/-- The struct.pack code `"H"`: one little-endian 16-bit unsigned integer,
`struct.error` out of range. -/
def packU16 (n : Nat) : Option (List Nat) :=
  if n < 65536 then some [n % 256, n / 256] else none

/-- The struct.pack code `"I"`: one little-endian 32-bit unsigned integer,
`struct.error` out of range. -/
def packU32 (n : Nat) : Option (List Nat) :=
  if n < 4294967296 then
    some [n % 256, n / 256 % 256, n / 65536 % 256, n / 16777216 % 256]
  else none

/-- The computed one-byte width field: `frame.width if frame.width < 256
else 0`. -/
def width_byte (f : IconFrame) : Nat := if f.width < 256 then f.width else 0

/-- The computed one-byte height field, same rule as the width byte. -/
def height_byte (f : IconFrame) : Nat := if f.height < 256 then f.height else 0

/-- One directory entry, `struct.pack("<BBBBHHII", width_byte, height_byte,
0, 0, 1, frame.bit_count, len(frame.data), offset)`. -/
def packEntry (f : IconFrame) (offset : Nat) : Option (List Nat) := do
  let w ← packU8 (width_byte f)
  let h ← packU8 (height_byte f)
  let c ← packU8 0
  let r ← packU8 0
  let p ← packU16 1
  let b ← packU16 f.bit_count
  let s ← packU32 f.data.length
  let o ← packU32 offset
  return w ++ h ++ c ++ r ++ p ++ b ++ s ++ o

/-- The entry loop of `write_ico`: each frame's entry is packed at the
running offset, which then advances by that frame's payload length. -/
def packEntries : List IconFrame → Nat → Option (List Nat)
  | [], _ => some []
  | f :: rest, offset => do
    let e ← packEntry f offset
    let es ← packEntries rest (offset + f.data.length)
    return e ++ es

/-- The serializer's `ordered = sorted(images, key=lambda frame:
frame.width)`. -/
def ordered (images : List IconFrame) : List IconFrame :=
  pySorted (fun a b => decide (a.width ≤ b.width)) images

/-- The payload section: the `data_chunks` written one after the other right
after the header bytearray. -/
def dataChunks (images : List IconFrame) : List Nat :=
  (images.map IconFrame.data).flatten

/-- The function `write_ico`, as the complete byte string it writes to the
destination (header, directory, payloads).  `none` models a `struct.error`,
which in the script is raised while the header bytearray is still being
built, before the destination file is opened.  The filesystem side (mkdir,
opening the sink) is outside this byte-level model. -/
def write_ico (images : List IconFrame) : Option (List Nat) := do
  let os := ordered images
  let hdr ← packU16 0
  let typ ← packU16 1
  let cnt ← packU16 os.length
  let dir ← packEntries os (6 + 16 * os.length)
  return hdr ++ typ ++ cnt ++ dir ++ dataChunks os

/-- Failure of a whole conversion task: a collection failure propagating
from `load_square_pngs`, or a pack failure inside `write_ico`. -/
inductive ConvError where
  | load : LoadError → ConvError
  | pack : ConvError
deriving DecidableEq, Repr

/-- The function `convert_folder`: collect frames, then serialize.  A
collection error is raised before `write_ico` is ever called, so on
`.error` no container bytes exist and nothing has been written to the
destination. -/
def convert_folder (folder : Option (List SrcImage)) :
    Except ConvError (List Nat) :=
  match load_square_pngs folder with
  | .error e => .error (.load e)
  | .ok images =>
    match write_ico images with
    | none => .error .pack
    | some bytes => .ok bytes

/-- Byte at index `i` of a byte string (0 past the end), reader side. -/
def byteAt (bs : List Nat) (i : Nat) : Nat := bs.getD i 0

/-- Little-endian 16-bit read at index `i`. -/
def readU16 (bs : List Nat) (i : Nat) : Nat :=
  byteAt bs i + 256 * byteAt bs (i + 1)

/-- Little-endian 32-bit read at index `i`. -/
def readU32 (bs : List Nat) (i : Nat) : Nat :=
  byteAt bs i + 256 * byteAt bs (i + 1) + 65536 * byteAt bs (i + 2) +
    16777216 * byteAt bs (i + 3)

/-- Sum of the payload lengths of the first `k` frames of a frame list. -/
def sumLenBefore (l : List IconFrame) (k : Nat) : Nat :=
  ((l.take k).map (fun f => f.data.length)).sum

/-- A reader that reinterprets the reserved byte value 0 as 256. -/
def decodeDim (b : Nat) : Nat := if b = 0 then 256 else b

/-- The sixteen bytes of a successfully packed directory entry. -/
def entryBytes (f : IconFrame) (offset : Nat) : List Nat :=
  [width_byte f, height_byte f, 0, 0, 1, 0,
   f.bit_count % 256, f.bit_count / 256,
   f.data.length % 256, f.data.length / 256 % 256,
   f.data.length / 65536 % 256, f.data.length / 16777216 % 256,
   offset % 256, offset / 256 % 256, offset / 65536 % 256,
   offset / 16777216 % 256]

/-- Python-dict lookup `m[k]` on the association-list model. -/
def dictFind (m : List (SizeKey × IconFrame)) (k : SizeKey) : Option IconFrame :=
  (m.find? (fun p => decide (p.1 = k))).map Prod.snd

/-- The frame of the last square file of resolution `k` in a file list,
starting from a prior candidate `o` (accumulator form matching `foldl`). -/
def winner (k : SizeKey) (o : Option IconFrame) (files : List SrcImage) :
    Option IconFrame :=
  files.foldl
    (fun acc g =>
      if g.width = g.height ∧ (g.width, g.height) = k then some (mkFrame g)
      else acc) o

/-- Well-formedness of the `size_map`: keys are pairwise distinct, every
entry's frame has exactly its key as dimensions, and every key is square. -/
abbrev goodMap (m : List (SizeKey × IconFrame)) : Prop :=
  (m.map Prod.fst).Nodup ∧
    ∀ p ∈ m, p.2.width = p.1.1 ∧ p.2.height = p.1.2 ∧ p.1.1 = p.1.2

/-! ### Lemmas about the stable sort -/

theorem insertLe_perm (le : α → α → Bool) (a : α) (l : List α) :
    List.Perm (insertLe le a l) (a :: l) := by
  induction l with
  | nil => exact List.Perm.refl _
  | cons b l ih =>
    unfold insertLe
    split
    · exact List.Perm.refl _
    · exact (ih.cons b).trans (List.Perm.swap a b l)

theorem pySorted_perm (le : α → α → Bool) (l : List α) :
    List.Perm (pySorted le l) l := by
  induction l with
  | nil => exact List.Perm.refl _
  | cons a l ih => exact (insertLe_perm le a (pySorted le l)).trans (ih.cons a)

theorem length_pySorted (le : α → α → Bool) (l : List α) :
    (pySorted le l).length = l.length :=
  (pySorted_perm le l).length_eq

theorem mem_insertLe {le : α → α → Bool} {a x : α} {l : List α} :
    x ∈ insertLe le a l ↔ x = a ∨ x ∈ l := by
  rw [(insertLe_perm le a l).mem_iff, List.mem_cons]

theorem pairwise_insertLe {le : α → α → Bool}
    (htrans : ∀ a b c, le a b = true → le b c = true → le a c = true)
    (htot : ∀ a b, le a b = true ∨ le b a = true)
    (a : α) {l : List α} (hs : l.Pairwise (fun x y => le x y = true)) :
    (insertLe le a l).Pairwise (fun x y => le x y = true) := by
  induction l with
  | nil => simp [insertLe]
  | cons b l ih =>
    rcases List.pairwise_cons.mp hs with ⟨hb, hl⟩
    unfold insertLe
    split
    · rename_i hab
      refine List.Pairwise.cons ?_ hs
      intro y hy
      rcases List.mem_cons.mp hy with rfl | hy
      · exact hab
      · exact htrans a b y hab (hb y hy)
    · rename_i hab
      have hba : le b a = true := by
        rcases htot a b with h | h
        · exact absurd h hab
        · exact h
      refine List.Pairwise.cons ?_ (ih hl)
      intro y hy
      rcases mem_insertLe.mp hy with rfl | hy
      · exact hba
      · exact hb y hy

theorem pairwise_pySorted {le : α → α → Bool}
    (htrans : ∀ a b c, le a b = true → le b c = true → le a c = true)
    (htot : ∀ a b, le a b = true ∨ le b a = true) (l : List α) :
    (pySorted le l).Pairwise (fun x y => le x y = true) := by
  induction l with
  | nil => simp [pySorted]
  | cons a l ih => exact pairwise_insertLe htrans htot a ih

theorem pySorted_of_pairwise {le : α → α → Bool} {l : List α}
    (h : l.Pairwise (fun x y => le x y = true)) : pySorted le l = l := by
  induction l with
  | nil => rfl
  | cons a l ih =>
    rcases List.pairwise_cons.mp h with ⟨ha, hl⟩
    rw [pySorted, ih hl]
    cases l with
    | nil => rfl
    | cons b t => rw [insertLe, if_pos (ha b (List.mem_cons_self b t))]

/-! ### Lemmas about packing -/

theorem width_byte_lt (f : IconFrame) : width_byte f < 256 := by
  unfold width_byte; split <;> omega

theorem height_byte_lt (f : IconFrame) : height_byte f < 256 := by
  unfold height_byte; split <;> omega

theorem entryBytes_length (f : IconFrame) (offset : Nat) :
    (entryBytes f offset).length = 16 := rfl

theorem packEntry_some {f : IconFrame} {offset : Nat} {e : List Nat}
    (h : packEntry f offset = some e) :
    offset < 4294967296 ∧ e = entryBytes f offset := by
  have hw := width_byte_lt f
  have hh := height_byte_lt f
  unfold packEntry at h
  simp only [packU8, packU16, packU32, if_pos hw, if_pos hh] at h
  norm_num at h
  split at h
  · split at h
    · split at h
      · simp only [Option.some_bind, Option.bind_some] at h
        norm_num at h
        exact ⟨by assumption, h.symm⟩
      · simp at h
    · simp at h
  · simp at h

theorem sumLenBefore_zero (l : List IconFrame) : sumLenBefore l 0 = 0 := rfl

theorem sumLenBefore_cons_succ (f : IconFrame) (rest : List IconFrame)
    (k : Nat) :
    sumLenBefore (f :: rest) (k + 1) = f.data.length + sumLenBefore rest k := by
  simp [sumLenBefore]

theorem packEntries_decomp :
    ∀ (l : List IconFrame) (off : Nat) (d : List Nat),
      packEntries l off = some d → ∀ k, k < l.length →
      ∃ pre post : List Nat,
        d = pre ++ entryBytes (l.getD k default) (off + sumLenBefore l k) ++ post
          ∧ pre.length = 16 * k ∧ off + sumLenBefore l k < 4294967296
  | [], _, _, _, k, hk => by simp at hk
  | f :: rest, off, d, h, k, hk => by
    unfold packEntries at h
    cases he : packEntry f off with
    | none => rw [he] at h; simp at h
    | some e =>
      rw [he] at h
      cases hes : packEntries rest (off + f.data.length) with
      | none => rw [hes] at h; simp at h
      | some es =>
        rw [hes] at h
        replace h : e ++ es = d := by simpa using h
        obtain ⟨hoff, hee⟩ := packEntry_some he
        cases k with
        | zero =>
          refine ⟨[], es, ?_, rfl, ?_⟩
          · simp [← h, hee, sumLenBefore_zero]
          · simpa [sumLenBefore_zero] using hoff
        | succ k =>
          have hk2 : k < rest.length := by simpa using hk
          obtain ⟨pre, post, hd, hpre, hlt⟩ :=
            packEntries_decomp rest (off + f.data.length) es hes k hk2
          refine ⟨e ++ pre, post, ?_, ?_, ?_⟩
          · rw [← h, hd, hee]
            simp [sumLenBefore_cons_succ, Nat.add_assoc]
          · simp [hpre, hee, entryBytes_length]
            omega
          · rw [sumLenBefore_cons_succ]; omega

theorem byteAt_append_add (a b : List Nat) (i : Nat) :
    byteAt (a ++ b) (a.length + i) = byteAt b i := by
  unfold byteAt
  rw [List.getD_eq_getElem?_getD, List.getD_eq_getElem?_getD,
    List.getElem?_append_right (Nat.le_add_right a.length i)]
  simp

theorem length_ordered (images : List IconFrame) :
    (ordered images).length = images.length :=
  length_pySorted _ _

theorem write_ico_some {images : List IconFrame} {out : List Nat}
    (h : write_ico images = some out) :
    ∃ dir,
      packEntries (ordered images) (6 + 16 * (ordered images).length) = some dir
        ∧ (ordered images).length < 65536
        ∧ out = 0 :: 0 :: 1 :: 0 :: ((ordered images).length % 256) ::
            ((ordered images).length / 256) ::
            (dir ++ dataChunks (ordered images)) := by
  unfold write_ico at h
  simp only [packU16] at h
  norm_num at h
  split at h
  · rename_i hlen
    cases hd : packEntries (ordered images) (6 + 16 * (ordered images).length)
      with
    | none => rw [hd] at h; simp at h
    | some dir =>
      rw [hd] at h
      refine ⟨dir, rfl, hlen, ?_⟩
      replace h : [0, 0] ++ [1, 0] ++
          [(ordered images).length % 256, (ordered images).length / 256] ++
          dir ++ dataChunks (ordered images) = out := by simpa using h
      rw [← h]
      simp
  · simp at h

theorem readU32_append (A : List Nat) (o0 o1 o2 o3 : Nat) (t : List Nat) :
    readU32 (A ++ (o0 :: o1 :: o2 :: o3 :: t)) A.length =
      o0 + 256 * o1 + 65536 * o2 + 16777216 * o3 := by
  unfold readU32
  have h0 := byteAt_append_add A (o0 :: o1 :: o2 :: o3 :: t) 0
  have h1 := byteAt_append_add A (o0 :: o1 :: o2 :: o3 :: t) 1
  have h2 := byteAt_append_add A (o0 :: o1 :: o2 :: o3 :: t) 2
  have h3 := byteAt_append_add A (o0 :: o1 :: o2 :: o3 :: t) 3
  rw [Nat.add_zero] at h0
  rw [h0, h1, h2, h3]
  rfl

theorem u32_decode {n : Nat} (h : n < 4294967296) :
    n % 256 + 256 * (n / 256 % 256) + 65536 * (n / 65536 % 256) +
      16777216 * (n / 16777216 % 256) = n := by omega

theorem readU32_offset_field {images : List IconFrame} {out : List Nat}
    (h : write_ico images = some out) {k : Nat}
    (hk : k < (ordered images).length) :
    readU32 out (18 + 16 * k) =
      6 + 16 * (ordered images).length + sumLenBefore (ordered images) k := by
  obtain ⟨dir, hdir, hlen, hout⟩ := write_ico_some h
  obtain ⟨pre, post, hd, hpre, hlt⟩ := packEntries_decomp _ _ _ hdir k hk
  have hoff :
      6 + 16 * (ordered images).length + sumLenBefore (ordered images) k
        < 4294967296 := hlt
  set f := (ordered images).getD k default with hf
  set off := 6 + 16 * (ordered images).length + sumLenBefore (ordered images) k
    with hoffdef
  have hentry : entryBytes f off =
      [width_byte f, height_byte f, 0, 0, 1, 0, f.bit_count % 256,
        f.bit_count / 256, f.data.length % 256, f.data.length / 256 % 256,
        f.data.length / 65536 % 256, f.data.length / 16777216 % 256] ++
      (off % 256 :: off / 256 % 256 :: off / 65536 % 256 ::
        off / 16777216 % 256 :: []) := rfl
  set A := [0, 0, 1, 0, (ordered images).length % 256,
      (ordered images).length / 256] ++ pre ++
      [width_byte f, height_byte f, 0, 0, 1, 0, f.bit_count % 256,
        f.bit_count / 256, f.data.length % 256, f.data.length / 256 % 256,
        f.data.length / 65536 % 256, f.data.length / 16777216 % 256] with hA
  have hout2 : out = A ++ (off % 256 :: off / 256 % 256 :: off / 65536 % 256 ::
      off / 16777216 % 256 :: (post ++ dataChunks (ordered images))) := by
    rw [hout, hd, hentry, hA]
    simp
  have hAlen : A.length = 18 + 16 * k := by
    rw [hA]
    simp [hpre]
    omega
  rw [hout2, ← hAlen, readU32_append]
  exact u32_decode hoff

/-! ### Claim theorems: serializer byte layout -/

/-- C1: for every non-empty frame set, the serializer writes directory entry
k's 32-bit payload-offset field equal to `6 + 16*N` plus the sum of the
payload lengths of directory entries 0..k-1 (N the frame count), so payloads
are packed contiguously, with no padding, in directory order. -/
theorem write_ico_offset_fields_contiguous (images : List IconFrame)
    (out : List Nat) (_hne : images ≠ [])
    (hw : write_ico images = some out) (k : Nat) (hk : k < images.length) :
    readU32 out (18 + 16 * k) =
      6 + 16 * images.length + sumLenBefore (ordered images) k := by
  have hk2 : k < (ordered images).length := by rw [length_ordered]; exact hk
  have hfield := readU32_offset_field hw hk2
  rw [length_ordered] at hfield
  exact hfield

theorem write_ico_offset_fields_contiguous_witness :
    readU32 [0, 0, 1, 0, 1, 0, 16, 16, 0, 0, 1, 0, 24, 0, 1, 0, 0, 0, 22, 0,
        0, 0, 9] (18 + 16 * 0) =
      6 + 16 * [(⟨16, 16, 24, [9]⟩ : IconFrame)].length +
        sumLenBefore (ordered [⟨16, 16, 24, [9]⟩]) 0 :=
  write_ico_offset_fields_contiguous [⟨16, 16, 24, [9]⟩] _ (by decide)
    (by decide) 0 (by decide)

set_option maxRecDepth 100000 in
/-- C2: on the frame set {(16,16,24-bit,50-byte payload),
(32,32,32-bit,120-byte payload)} the serializer produces header bytes
00 00 01 00 02 00, entry 0 with width 16, height 16, planes 1, bit count 24,
size 50, offset 38, entry 1 with width 32, height 32, planes 1, bit count 32,
size 120, offset 88, and a 208-byte container. -/
theorem write_ico_two_frame_example :
    ∃ out : List Nat,
      write_ico [⟨16, 16, 24, List.replicate 50 0⟩,
          ⟨32, 32, 32, List.replicate 120 1⟩] = some out ∧
      out.length = 208 ∧ out.take 6 = [0, 0, 1, 0, 2, 0] ∧
      byteAt out 6 = 16 ∧ byteAt out 7 = 16 ∧ readU16 out 10 = 1 ∧
      readU16 out 12 = 24 ∧ readU32 out 14 = 50 ∧ readU32 out 18 = 38 ∧
      byteAt out 22 = 32 ∧ byteAt out 23 = 32 ∧ readU16 out 26 = 1 ∧
      readU16 out 28 = 32 ∧ readU32 out 30 = 120 ∧ readU32 out 34 = 88 := by
  refine ⟨[0, 0, 1, 0, 2, 0] ++
      [16, 16, 0, 0, 1, 0, 24, 0, 50, 0, 0, 0, 38, 0, 0, 0] ++
      [32, 32, 0, 0, 1, 0, 32, 0, 120, 0, 0, 0, 88, 0, 0, 0] ++
      (List.replicate 50 0 ++ List.replicate 120 1), ?_⟩
  decide

/-- C4 counterexample: for the 512×512 frame the claim's round-trip fails:
the width byte is 0, and a reader reinterpreting 0 as 256 recovers 256, not
the frame's true dimension 512. -/
theorem dim_roundtrip_fails_at_512 :
    256 ≤ (⟨512, 512, 32, []⟩ : IconFrame).width ∧
      width_byte ⟨512, 512, 32, []⟩ = 0 ∧
      decodeDim (width_byte ⟨512, 512, 32, []⟩) ≠
        (⟨512, 512, 32, []⟩ : IconFrame).width := by
  decide

/-- C4 (amended): the one-byte width field equals the frame's width when the
width is below 256 and 0 otherwise, likewise for the height byte; a reader
reinterpreting the byte 0 as 256 recovers the true dimension exactly for
frames whose dimension is 256 (for larger dimensions the byte is still 0 and
the true value is not recoverable). -/
theorem dim_byte_encoding (f : IconFrame) :
    (f.width < 256 → width_byte f = f.width) ∧
    (256 ≤ f.width → width_byte f = 0) ∧
    (f.height < 256 → height_byte f = f.height) ∧
    (256 ≤ f.height → height_byte f = 0) ∧
    (f.width = 256 → decodeDim (width_byte f) = f.width) ∧
    (f.height = 256 → decodeDim (height_byte f) = f.height) := by
  simp only [width_byte, height_byte, decodeDim]
  refine ⟨fun h => ?_, fun h => ?_, fun h => ?_, fun h => ?_, fun h => ?_,
    fun h => ?_⟩ <;> split_ifs <;> omega

theorem dim_byte_encoding_witness :
    width_byte ⟨100, 256, 32, []⟩ = 100 ∧ height_byte ⟨100, 256, 32, []⟩ = 0 ∧
      decodeDim (height_byte ⟨100, 256, 32, []⟩) = 256 ∧
      width_byte ⟨300, 40, 32, []⟩ = 0 ∧ height_byte ⟨300, 40, 32, []⟩ = 40 ∧
      decodeDim (width_byte ⟨256, 256, 32, []⟩) = 256 :=
  ⟨(dim_byte_encoding ⟨100, 256, 32, []⟩).1 (by decide),
    (dim_byte_encoding ⟨100, 256, 32, []⟩).2.2.2.1 (by decide),
    (dim_byte_encoding ⟨100, 256, 32, []⟩).2.2.2.2.2 (by decide),
    (dim_byte_encoding ⟨300, 40, 32, []⟩).2.1 (by decide),
    (dim_byte_encoding ⟨300, 40, 32, []⟩).2.2.1 (by decide),
    (dim_byte_encoding ⟨256, 256, 32, []⟩).2.2.2.2.1 (by decide)⟩

/-- C10: for every frame with positive width and height, the computed
one-byte width and height fields lie in 0..255, so packing them with the
one-byte code always succeeds and its out-of-range error branch is
unreachable. -/
theorem entry_dim_bytes_in_range (f : IconFrame) (_hw : 0 < f.width)
    (_hh : 0 < f.height) :
    width_byte f < 256 ∧ height_byte f < 256 ∧
      packU8 (width_byte f) = some [width_byte f] ∧
      packU8 (height_byte f) = some [height_byte f] :=
  ⟨width_byte_lt f, height_byte_lt f,
    by simp [packU8, width_byte_lt f], by simp [packU8, height_byte_lt f]⟩

theorem entry_dim_bytes_in_range_witness :
    width_byte ⟨16, 16, 32, []⟩ < 256 ∧ height_byte ⟨16, 16, 32, []⟩ < 256 ∧
      packU8 (width_byte ⟨16, 16, 32, []⟩) = some [width_byte ⟨16, 16, 32, []⟩] ∧
      packU8 (height_byte ⟨16, 16, 32, []⟩) =
        some [height_byte ⟨16, 16, 32, []⟩] :=
  entry_dim_bytes_in_range ⟨16, 16, 32, []⟩ (by decide) (by decide)

/-! ### Frame collection: error conditions and the alpha-check slip -/

theorem dictInsert_ne_nil (m : List (SizeKey × IconFrame)) (k : SizeKey)
    (v : IconFrame) : dictInsert m k v ≠ [] := by
  unfold dictInsert
  split
  · rename_i hany
    intro h
    simp only [List.map_eq_nil_iff] at h
    subst h
    simp at hany
  · simp

theorem foldl_scanStep_eq_nil (files : List SrcImage) :
    ∀ m, (files.foldl scanStep m = [] ↔
      m = [] ∧ ∀ f ∈ files, f.width ≠ f.height) := by
  induction files with
  | nil => intro m; simp
  | cons f rest ih =>
    intro m
    rw [List.foldl_cons, ih (scanStep m f)]
    unfold scanStep
    split
    · rename_i hsq
      constructor
      · rintro ⟨habs, -⟩
        exact absurd habs (dictInsert_ne_nil m _ _)
      · rintro ⟨-, hall⟩
        exact absurd hsq (hall f (List.mem_cons_self f rest))
    · rename_i hsq
      constructor
      · rintro ⟨hm, hall⟩
        refine ⟨hm, fun g hg => ?_⟩
        rcases List.mem_cons.mp hg with rfl | hg
        · exact hsq
        · exact hall g hg
      · rintro ⟨hm, hall⟩
        exact ⟨hm, fun g hg => hall g (List.mem_cons_of_mem f hg)⟩

theorem buildSizeMap_eq_nil (files : List SrcImage) :
    buildSizeMap files = [] ↔ ∀ f ∈ files, f.width ≠ f.height := by
  rw [show buildSizeMap files = files.foldl scanStep [] from rfl,
    foldl_scanStep_eq_nil files []]
  simp

theorem load_eq_empty_error {files : List SrcImage}
    (h : ∀ f ∈ files, f.width ≠ f.height) :
    load_square_pngs (some files) = .error .EmptyFrameSet := by
  have hempty : buildSizeMap files = [] := (buildSizeMap_eq_nil files).mpr h
  simp [load_square_pngs, hempty]

theorem load_eq_ok {files : List SrcImage}
    (h : ¬ ∀ f ∈ files, f.width ≠ f.height) :
    load_square_pngs (some files) = .ok (sortedFrames (buildSizeMap files)) := by
  have hne : buildSizeMap files ≠ [] := fun hc =>
    h ((buildSizeMap_eq_nil files).mp hc)
  simp only [load_square_pngs]
  rw [if_neg]
  simpa [List.isEmpty_iff] using hne

/-- C3 (evidence for a code bug): the script computes the bit count from the
bands of the RGBA-converted image, which always include an alpha band, so
every collected frame gets bit depth 32 — also for a square source image
whose own channel set has no alpha, where the claim requires 24.  The
`else 24` branch of the source is unreachable. -/
theorem bit_count_always_32 :
    (∀ img : SrcImage, bitCountOf img = 32) ∧
      load_square_pngs (some [⟨16, 16, false, [7]⟩]) =
        .ok [⟨16, 16, 32, [7]⟩] :=
  ⟨fun _ => rfl, by rfl⟩

/-- C7: collection fails with MissingSource exactly when the folder does not
exist, fails with EmptyFrameSet exactly when the folder exists but contains
no square frame, and in every other case returns a frame set. -/
theorem load_square_pngs_error_conditions (folder : Option (List SrcImage)) :
    (load_square_pngs folder = .error .MissingSource ↔ folder = none) ∧
    (load_square_pngs folder = .error .EmptyFrameSet ↔
      ∃ files, folder = some files ∧ ∀ f ∈ files, f.width ≠ f.height) ∧
    (∀ files, folder = some files → (∃ f ∈ files, f.width = f.height) →
      ∃ frames, load_square_pngs folder = .ok frames) := by
  cases folder with
  | none =>
    refine ⟨by simp [load_square_pngs], by simp [load_square_pngs], ?_⟩
    intro files h
    exact absurd h (by simp)
  | some files =>
    by_cases hsq : ∀ f ∈ files, f.width ≠ f.height
    · have hload := load_eq_empty_error hsq
      refine ⟨by rw [hload]; simp, ?_, ?_⟩
      · rw [hload]
        simp only [true_iff, iff_true_intro rfl]
        exact ⟨files, rfl, hsq⟩
      · rintro files' hf ⟨g, hg, hgsq⟩
        rw [Option.some.injEq] at hf
        subst hf
        exact absurd hgsq (hsq g hg)
    · have hload := load_eq_ok hsq
      have hex : ∃ g ∈ files, g.width = g.height := by
        push_neg at hsq
        exact hsq
      refine ⟨by rw [hload]; simp, ?_, ?_⟩
      · rw [hload]
        simp
        exact hex
      · intro files' hf _
        exact ⟨_, hload⟩

theorem load_square_pngs_error_conditions_witness :
    load_square_pngs (none : Option (List SrcImage)) =
        .error .MissingSource ∧
    ∃ frames, load_square_pngs (some [⟨16, 16, true, [5]⟩]) = .ok frames :=
  ⟨((load_square_pngs_error_conditions none).1).mpr rfl,
    (load_square_pngs_error_conditions (some [⟨16, 16, true, [5]⟩])).2.2
      [⟨16, 16, true, [5]⟩] rfl
      ⟨⟨16, 16, true, [5]⟩, List.mem_singleton.mpr rfl, rfl⟩⟩

/-- C8: a source folder with zero square assets makes the whole conversion
task fail with EmptyFrameSet; the failure is raised by the collection pass,
before `write_ico` is called, so no container bytes exist and no output file
is created or written. -/
theorem convert_folder_empty_no_output (files : List SrcImage)
    (h : ∀ f ∈ files, f.width ≠ f.height) :
    convert_folder (some files) = .error (.load .EmptyFrameSet) := by
  unfold convert_folder
  rw [load_eq_empty_error h]

theorem convert_folder_empty_no_output_witness :
    convert_folder (some [⟨16, 32, false, [3]⟩]) =
      .error (.load .EmptyFrameSet) :=
  convert_folder_empty_no_output [⟨16, 32, false, [3]⟩] (by decide)

/-! ### Sort determinism on distinct widths -/

theorem frameLe_trans (a b c : IconFrame)
    (hab : decide (a.width ≤ b.width) = true)
    (hbc : decide (b.width ≤ c.width) = true) :
    decide (a.width ≤ c.width) = true := by
  simp only [decide_eq_true_eq] at hab hbc ⊢
  omega

theorem frameLe_total (a b : IconFrame) :
    decide (a.width ≤ b.width) = true ∨ decide (b.width ≤ a.width) = true := by
  simp only [decide_eq_true_eq]
  omega

theorem pairwise_lt_of_pairwise_le_nodup {l : List IconFrame}
    (hs : l.Pairwise (fun a b => decide (a.width ≤ b.width) = true))
    (hnd : (l.map IconFrame.width).Nodup) :
    l.Pairwise (fun a b => a.width < b.width) := by
  have hne : l.Pairwise (fun a b => a.width ≠ b.width) :=
    List.pairwise_map.mp hnd
  refine (hs.and hne).imp ?_
  intro a b hab
  rcases hab with ⟨h1, h2⟩
  simp only [decide_eq_true_eq] at h1
  omega

theorem eq_of_perm_of_pairwise_lt {l₁ l₂ : List IconFrame}
    (hp : List.Perm l₁ l₂)
    (h₁ : l₁.Pairwise (fun a b => a.width < b.width))
    (h₂ : l₂.Pairwise (fun a b => a.width < b.width)) : l₁ = l₂ := by
  haveI : IsAntisymm IconFrame (fun a b => a.width < b.width) :=
    ⟨fun a b hab hba => absurd hab (by omega)⟩
  exact List.eq_of_perm_of_sorted hp h₁ h₂

theorem ordered_pairwise_lt {l : List IconFrame}
    (hnd : (l.map IconFrame.width).Nodup) :
    (ordered l).Pairwise (fun a b => a.width < b.width) := by
  unfold ordered
  have hs := pairwise_pySorted frameLe_trans frameLe_total l
  have hp := pySorted_perm (fun a b : IconFrame => decide (a.width ≤ b.width)) l
  have hnd2 := (hp.map IconFrame.width).nodup_iff.mpr hnd
  exact pairwise_lt_of_pairwise_le_nodup hs hnd2

theorem ordered_eq_of_perm {l₁ l₂ : List IconFrame}
    (hnd : (l₁.map IconFrame.width).Nodup) (hp : List.Perm l₁ l₂) :
    ordered l₁ = ordered l₂ := by
  have hnd2 : (l₂.map IconFrame.width).Nodup :=
    ((hp.map IconFrame.width)).nodup_iff.mp hnd
  have hperm : List.Perm (ordered l₁) (ordered l₂) :=
    ((pySorted_perm _ l₁).trans hp).trans (pySorted_perm _ l₂).symm
  exact eq_of_perm_of_pairwise_lt hperm (ordered_pairwise_lt hnd)
    (ordered_pairwise_lt hnd2)

/-- C9: on frame lists with pairwise-distinct widths the serializer's output
does not depend on the order of its input: the container bytes are identical
for every permutation, because the serializer sorts by width itself. -/
theorem write_ico_perm_invariant (l₁ l₂ : List IconFrame)
    (hnd : (l₁.map IconFrame.width).Nodup) (hp : List.Perm l₁ l₂) :
    write_ico l₁ = write_ico l₂ := by
  have hord : ordered l₁ = ordered l₂ := ordered_eq_of_perm hnd hp
  unfold write_ico
  rw [hord]

theorem write_ico_perm_invariant_witness :
    write_ico [⟨32, 32, 32, [1]⟩, ⟨16, 16, 32, [2]⟩] =
      write_ico [⟨16, 16, 32, [2]⟩, ⟨32, 32, 32, [1]⟩] :=
  write_ico_perm_invariant _ _ (by decide)
    (List.Perm.swap (⟨16, 16, 32, [2]⟩ : IconFrame) (⟨32, 32, 32, [1]⟩ : IconFrame) [])

/-! ### The size-map invariant and strict ordering of the frame set -/

theorem goodMap_nil : goodMap [] := by
  constructor
  · simp
  · intro p hp
    simp at hp

theorem goodMap_dictInsert {m : List (SizeKey × IconFrame)} {k : SizeKey}
    {v : IconFrame} (hg : goodMap m) (hk : k.1 = k.2) (hv1 : v.width = k.1)
    (hv2 : v.height = k.2) : goodMap (dictInsert m k v) := by
  obtain ⟨hnd, hall⟩ := hg
  unfold dictInsert
  split
  · constructor
    · have hfst : (m.map (fun p => if p.1 = k then (k, v) else p)).map Prod.fst
          = m.map Prod.fst := by
        rw [List.map_map]
        apply List.map_congr_left
        intro p _
        by_cases hpk : p.1 = k
        · simp [hpk]
        · simp [hpk]
      rw [hfst]
      exact hnd
    · intro p hp
      rw [List.mem_map] at hp
      obtain ⟨q, hq, rfl⟩ := hp
      by_cases hqk : q.1 = k
      · simp only [if_pos hqk]
        exact ⟨hv1, hv2, hk⟩
      · simp only [if_neg hqk]
        exact hall q hq
  · rename_i hany
    have hknotin : k ∉ m.map Prod.fst := by
      intro hmem
      rw [List.mem_map] at hmem
      obtain ⟨q, hq, hq1⟩ := hmem
      exact hany (List.any_eq_true.mpr ⟨q, hq, by simp [hq1]⟩)
    constructor
    · rw [List.map_append]
      have hperm := List.perm_append_singleton k (m.map Prod.fst)
      exact hperm.nodup_iff.mpr (List.nodup_cons.mpr ⟨hknotin, hnd⟩)
    · intro p hp
      rcases List.mem_append.mp hp with hp | hp
      · exact hall p hp
      · rw [List.mem_singleton] at hp
        subst hp
        exact ⟨hv1, hv2, hk⟩

theorem goodMap_foldl (files : List SrcImage) :
    ∀ m, goodMap m → goodMap (files.foldl scanStep m) := by
  induction files with
  | nil => intro m hm; simpa using hm
  | cons f rest ih =>
    intro m hm
    rw [List.foldl_cons]
    apply ih
    unfold scanStep
    split
    · rename_i hsq
      exact goodMap_dictInsert hm hsq rfl rfl
    · exact hm

theorem goodMap_buildSizeMap (files : List SrcImage) :
    goodMap (buildSizeMap files) :=
  goodMap_foldl files [] goodMap_nil

theorem entryLe_trans (p q r : SizeKey × IconFrame)
    (hpq : entryLe p q = true) (hqr : entryLe q r = true) :
    entryLe p r = true := by
  simp only [entryLe, keyLe, decide_eq_true_eq] at hpq hqr ⊢
  omega

theorem entryLe_total (p q : SizeKey × IconFrame) :
    entryLe p q = true ∨ entryLe q p = true := by
  simp only [entryLe, keyLe, decide_eq_true_eq]
  omega

theorem sortedFrames_pairwise_lt {m : List (SizeKey × IconFrame)}
    (hg : goodMap m) :
    (sortedFrames m).Pairwise (fun a b => a.width < b.width) := by
  obtain ⟨hnd, hall⟩ := hg
  have hs := pairwise_pySorted entryLe_trans entryLe_total m
  have hperm := pySorted_perm entryLe m
  have hnd2 : ((pySorted entryLe m).map Prod.fst).Nodup :=
    (hperm.map Prod.fst).nodup_iff.mpr hnd
  have hall2 : ∀ p ∈ pySorted entryLe m,
      p.2.width = p.1.1 ∧ p.2.height = p.1.2 ∧ p.1.1 = p.1.2 :=
    fun p hp => hall p (hperm.mem_iff.mp hp)
  have hne : (pySorted entryLe m).Pairwise (fun p q => p.1 ≠ q.1) :=
    List.pairwise_map.mp hnd2
  have hlt : (pySorted entryLe m).Pairwise
      (fun p q => p.2.width < q.2.width) := by
    refine (hs.and hne).imp_of_mem ?_
    intro p q hp hq hpq
    obtain ⟨hle, hne2⟩ := hpq
    obtain ⟨hw1, hh1, hd1⟩ := hall2 p hp
    obtain ⟨hw2, hh2, hd2⟩ := hall2 q hq
    simp only [entryLe, keyLe, decide_eq_true_eq] at hle
    rcases hle with h | ⟨hfst, hsnd⟩
    · omega
    · exfalso
      exact hne2 (Prod.ext_iff.mpr ⟨hfst, by omega⟩)
  unfold sortedFrames
  exact List.pairwise_map.mpr hlt

theorem ordered_of_pairwise_lt {l : List IconFrame}
    (h : l.Pairwise (fun a b => a.width < b.width)) : ordered l = l := by
  unfold ordered
  apply pySorted_of_pairwise
  refine h.imp ?_
  intro a b hab
  simp only [decide_eq_true_eq]
  omega

theorem load_square_pngs_ok_frames {files : List SrcImage}
    {frames : List IconFrame}
    (h : load_square_pngs (some files) = .ok frames) :
    frames = sortedFrames (buildSizeMap files) := by
  simp only [load_square_pngs] at h
  split at h
  · simp at h
  · rw [Except.ok.injEq] at h
    exact h.symm

/-- C5: for every source folder with at least one square image, the frame
set has strictly ascending widths with no duplicate width, and the
serializer's own sorting pass leaves it unchanged, so the directory entries
appear in exactly that strictly ascending width order. -/
theorem load_square_pngs_sorted_strict (files : List SrcImage)
    (frames : List IconFrame)
    (h : load_square_pngs (some files) = .ok frames) :
    frames.Pairwise (fun a b => a.width < b.width) ∧
      (frames.map IconFrame.width).Nodup ∧ ordered frames = frames := by
  have hframes := load_square_pngs_ok_frames h
  subst hframes
  have hlt := sortedFrames_pairwise_lt (goodMap_buildSizeMap files)
  refine ⟨hlt, ?_, ordered_of_pairwise_lt hlt⟩
  refine List.pairwise_map.mpr (hlt.imp ?_)
  intro a b hab
  omega

theorem load_square_pngs_sorted_strict_witness :
    ([⟨16, 16, 32, [2]⟩, ⟨32, 32, 32, [1]⟩] : List IconFrame).Pairwise
        (fun a b => a.width < b.width) ∧
      (([⟨16, 16, 32, [2]⟩, ⟨32, 32, 32, [1]⟩] : List IconFrame).map
        IconFrame.width).Nodup ∧
      ordered [⟨16, 16, 32, [2]⟩, ⟨32, 32, 32, [1]⟩] =
        [⟨16, 16, 32, [2]⟩, ⟨32, 32, 32, [1]⟩] :=
  load_square_pngs_sorted_strict
    [⟨32, 32, true, [1]⟩, ⟨16, 16, false, [2]⟩] _ (by rfl)

/-! ### Last-wins deduplication -/

theorem dictFind_dictInsert_self (m : List (SizeKey × IconFrame))
    (k : SizeKey) (v : IconFrame) :
    dictFind (dictInsert m k v) k = some v := by
  unfold dictFind dictInsert
  split
  · rename_i hany
    rw [List.find?_map]
    have hpred : ((fun p : SizeKey × IconFrame => decide (p.1 = k)) ∘
        (fun p => if p.1 = k then (k, v) else p)) =
        fun p : SizeKey × IconFrame => decide (p.1 = k) := by
      funext p
      by_cases hpk : p.1 = k
      · simp [hpk]
      · simp [hpk]
    rw [hpred]
    rw [List.any_eq_true] at hany
    obtain ⟨q, hq, hq1⟩ := hany
    cases hfind : m.find? (fun p => decide (p.1 = k)) with
    | none =>
      rw [List.find?_eq_none] at hfind
      exact absurd hq1 (hfind q hq)
    | some q2 =>
      have hq2 : q2.1 = k := by simpa using List.find?_some hfind
      simp [hq2]
  · rename_i hany
    rw [List.find?_append]
    have hnone : m.find? (fun p => decide (p.1 = k)) = none := by
      rw [List.find?_eq_none]
      intro x hx hxk
      exact hany (List.any_eq_true.mpr ⟨x, hx, hxk⟩)
    rw [hnone]
    simp [List.find?]

theorem dictFind_dictInsert_ne (m : List (SizeKey × IconFrame))
    (k k2 : SizeKey) (v : IconFrame) (hne : k2 ≠ k) :
    dictFind (dictInsert m k v) k2 = dictFind m k2 := by
  unfold dictFind dictInsert
  split
  · rw [List.find?_map]
    have hpred : ((fun p : SizeKey × IconFrame => decide (p.1 = k2)) ∘
        (fun p => if p.1 = k then (k, v) else p)) =
        fun p : SizeKey × IconFrame => decide (p.1 = k2) := by
      funext p
      by_cases hpk : p.1 = k
      · simp [hpk]
      · simp [hpk]
    rw [hpred]
    cases hfind : m.find? (fun p => decide (p.1 = k2)) with
    | none => simp
    | some q =>
      have hq2 : q.1 = k2 := by simpa using List.find?_some hfind
      have hqk : ¬q.1 = k := by rw [hq2]; exact hne
      simp [hqk]
  · rw [List.find?_append]
    cases hfind : m.find? (fun p => decide (p.1 = k2)) with
    | none => simp [List.find?, Ne.symm hne]
    | some q => simp

theorem dictFind_scanStep (m : List (SizeKey × IconFrame)) (img : SrcImage)
    (k : SizeKey) :
    dictFind (scanStep m img) k =
      if img.width = img.height ∧ (img.width, img.height) = k then
        some (mkFrame img)
      else dictFind m k := by
  unfold scanStep
  by_cases hsq : img.width = img.height
  · rw [if_pos hsq]
    by_cases hkk : (img.width, img.height) = k
    · rw [if_pos ⟨hsq, hkk⟩]
      subst hkk
      exact dictFind_dictInsert_self m _ _
    · rw [if_neg (fun hc => hkk hc.2)]
      exact dictFind_dictInsert_ne m _ k _ (fun hc => hkk hc.symm)
  · rw [if_neg hsq, if_neg (fun hc => hsq hc.1)]

theorem winner_cons (k : SizeKey) (o : Option IconFrame) (f : SrcImage)
    (rest : List SrcImage) :
    winner k o (f :: rest) =
      winner k (if f.width = f.height ∧ (f.width, f.height) = k then
        some (mkFrame f) else o) rest := by
  unfold winner
  rw [List.foldl_cons]

theorem winner_append (k : SizeKey) (o : Option IconFrame)
    (xs ys : List SrcImage) :
    winner k o (xs ++ ys) = winner k (winner k o xs) ys := by
  unfold winner
  rw [List.foldl_append]

theorem winner_of_none (k : SizeKey) :
    ∀ (files : List SrcImage) (o : Option IconFrame),
      (∀ g ∈ files, ¬(g.width = g.height ∧ (g.width, g.height) = k)) →
      winner k o files = o := by
  intro files
  induction files with
  | nil => intro o _; rfl
  | cons f rest ih =>
    intro o h
    rw [winner_cons, if_neg (h f (List.mem_cons_self f rest))]
    exact ih o (fun g hg => h g (List.mem_cons_of_mem f hg))

theorem dictFind_foldl (k : SizeKey) :
    ∀ (files : List SrcImage) (m : List (SizeKey × IconFrame)),
      dictFind (files.foldl scanStep m) k = winner k (dictFind m k) files := by
  intro files
  induction files with
  | nil => intro m; rfl
  | cons f rest ih =>
    intro m
    rw [List.foldl_cons, ih (scanStep m f), winner_cons]
    congr 1
    exact dictFind_scanStep m f k

theorem mem_of_dictFind {m : List (SizeKey × IconFrame)} {k : SizeKey}
    {v : IconFrame} (h : dictFind m k = some v) :
    ∃ p ∈ m, p.1 = k ∧ p.2 = v := by
  unfold dictFind at h
  cases hfind : m.find? (fun p => decide (p.1 = k)) with
  | none => rw [hfind] at h; simp at h
  | some q =>
    rw [hfind] at h
    replace h : q.2 = v := by simpa using h
    exact ⟨q, List.mem_of_find?_eq_some hfind,
      by simpa using List.find?_some hfind, h⟩

theorem dictFind_eq_of_mem {m : List (SizeKey × IconFrame)} {k : SizeKey}
    {v : IconFrame} (hnd : (m.map Prod.fst).Nodup) (hmem : (k, v) ∈ m) :
    dictFind m k = some v := by
  induction m with
  | nil => simp at hmem
  | cons p rest ih =>
    rw [List.map_cons, List.nodup_cons] at hnd
    obtain ⟨hp1, hnd2⟩ := hnd
    unfold dictFind
    by_cases hpk : p.1 = k
    · rw [List.find?_cons_of_pos _ (by simpa using hpk)]
      rcases List.mem_cons.mp hmem with heq | hmem2
      · rw [← heq]
        rfl
      · exfalso
        apply hp1
        rw [hpk]
        exact List.mem_map.mpr ⟨(k, v), hmem2, rfl⟩
    · rw [List.find?_cons_of_neg _ (by simpa using hpk)]
      rcases List.mem_cons.mp hmem with heq | hmem2
      · exfalso
        apply hpk
        rw [← heq]
      · exact ih hnd2 hmem2

theorem sortedFrames_mem_iff {m : List (SizeKey × IconFrame)}
    {fr : IconFrame} :
    fr ∈ sortedFrames m ↔ ∃ p ∈ m, p.2 = fr := by
  unfold sortedFrames
  rw [List.mem_map]
  constructor
  · rintro ⟨p, hp, rfl⟩
    exact ⟨p, (pySorted_perm entryLe m).mem_iff.mp hp, rfl⟩
  · rintro ⟨p, hp, rfl⟩
    exact ⟨p, (pySorted_perm entryLe m).mem_iff.mpr hp, rfl⟩

/-- C6: last-wins deduplication.  If two square source files of the same
resolution occur in the deterministic sorted file order, and no later square
file shares that resolution, then the frame built from the later file — its
payload and its bit depth — is the one in the final frame set, and it is the
only frame of that width there. -/
theorem load_square_pngs_last_wins (pre mid post : List SrcImage)
    (f₁ f₂ : SrcImage) (frames : List IconFrame)
    (_h₁ : f₁.width = f₁.height) (h₂ : f₂.width = f₂.height)
    (_hres : f₁.width = f₂.width ∧ f₁.height = f₂.height)
    (hlast : ∀ g ∈ post,
      ¬(g.width = g.height ∧ (g.width, g.height) = (f₂.width, f₂.height)))
    (hload : load_square_pngs (some (pre ++ f₁ :: (mid ++ f₂ :: post))) =
      .ok frames) :
    mkFrame f₂ ∈ frames ∧
      ∀ fr ∈ frames, fr.width = f₂.width → fr = mkFrame f₂ := by
  have hframes := load_square_pngs_ok_frames hload
  subst hframes
  have hfind : dictFind (buildSizeMap (pre ++ f₁ :: (mid ++ f₂ :: post)))
      (f₂.width, f₂.height) = some (mkFrame f₂) := by
    rw [show buildSizeMap (pre ++ f₁ :: (mid ++ f₂ :: post)) =
      (pre ++ f₁ :: (mid ++ f₂ :: post)).foldl scanStep [] from rfl]
    rw [dictFind_foldl _ _ []]
    rw [winner_append, winner_cons, winner_append, winner_cons]
    rw [if_pos ⟨h₂, rfl⟩]
    exact winner_of_none _ post _ hlast
  obtain ⟨hnd, hall⟩ :=
    goodMap_buildSizeMap (pre ++ f₁ :: (mid ++ f₂ :: post))
  constructor
  · obtain ⟨p, hp, hpk, hpv⟩ := mem_of_dictFind hfind
    exact sortedFrames_mem_iff.mpr ⟨p, hp, hpv⟩
  · intro fr hfr hw
    obtain ⟨p, hp, hpv⟩ := sortedFrames_mem_iff.mp hfr
    obtain ⟨hw1, hh1, hd1⟩ := hall p hp
    rw [hpv] at hw1 hh1
    have hp1 : p.1 = (f₂.width, f₂.height) :=
      Prod.ext_iff.mpr ⟨by omega, by omega⟩
    have hpmem : (p.1, p.2) ∈ buildSizeMap (pre ++ f₁ :: (mid ++ f₂ :: post))
      := by simpa using hp
    have hfind2 := dictFind_eq_of_mem hnd hpmem
    rw [hp1] at hfind2
    have hv : p.2 = mkFrame f₂ :=
      Option.some.inj (hfind2.symm.trans hfind)
    rw [← hpv, hv]

theorem load_square_pngs_last_wins_witness :
    mkFrame ⟨16, 16, false, [2]⟩ ∈ ([⟨16, 16, 32, [2]⟩] : List IconFrame) ∧
      ∀ fr ∈ ([⟨16, 16, 32, [2]⟩] : List IconFrame),
        fr.width = (⟨16, 16, false, [2]⟩ : SrcImage).width →
          fr = mkFrame ⟨16, 16, false, [2]⟩ :=
  load_square_pngs_last_wins [] [] [] ⟨16, 16, true, [1]⟩ ⟨16, 16, false, [2]⟩
    [⟨16, 16, 32, [2]⟩] rfl rfl ⟨rfl, rfl⟩ (by simp) (by rfl)

end ConvertIcons
